import Mathlib

/-!
Shallow embedding of src/tiny_transformer_components.ipynb.

Real numbers stand for Python floats.  A T×D NumPy array is a function
Fin T → Fin D → ℝ.  The value -np.inf produced by the causal mask is
modelled by WithBot ℝ, with ⊥ standing for -inf; np.exp on such a value
follows the IEEE rule exp(-inf) = 0.  Randomness (np.random.rand,
np.random.choice) is modelled by passing the draws explicitly.
-/

namespace TinyTransformer

noncomputable section

/-- A T×D real matrix (a NumPy array of shape (T, D)). -/
abbrev Mat (T D : ℕ) : Type := Fin T → Fin D → ℝ

/-- np.max over the last axis of a nonempty row. -/
def rowMax {n : ℕ} [NeZero n] (x : Fin n → ℝ) : ℝ :=
  Finset.univ.sup' ⟨0, Finset.mem_univ 0⟩ x

/-- softmax from the notebook, on one finite row:
np.exp(x - np.max x) / np.sum(np.exp(x - np.max x)). -/
def softmax {n : ℕ} [NeZero n] (x : Fin n → ℝ) : Fin n → ℝ := fun i =>
  Real.exp (x i - rowMax x) / ∑ j, Real.exp (x j - rowMax x)

/-- Matrix product (the @ operator). -/
def matmul {a b c : ℕ} (X : Mat a b) (Y : Mat b c) : Mat a c := fun i k =>
  ∑ j, X i j * Y j k

/-- Entrywise sum of two same-shape arrays (the + operator). -/
def madd {a b : ℕ} (X Y : Mat a b) : Mat a b := fun i j => X i j + Y i j

/-- Matrix plus row vector (NumPy broadcasting along the first axis). -/
def addRow {a b : ℕ} (X : Mat a b) (v : Fin b → ℝ) : Mat a b := fun i j => X i j + v j

/-- causal_mask from the notebook: np.tril(np.ones((size, size))). -/
def causal_mask (T : ℕ) : Fin T → Fin T → ℝ := fun i j =>
  if (j : ℕ) ≤ (i : ℕ) then 1 else 0

/-- The raw attention scores Q @ K.T / np.sqrt(d_k), with d_k = D. -/
def scores {T D : ℕ} (Q K : Mat T D) : Fin T → Fin T → ℝ := fun i j =>
  (∑ d, Q i d * K j d) / Real.sqrt D

/-- np.where(mask == 1, scores, -np.inf); ⊥ models -inf. -/
def maskedScores {T D : ℕ} (Q K : Mat T D) : Fin T → Fin T → WithBot ℝ := fun i j =>
  if causal_mask T i j = 1 then ((scores Q K i j : ℝ) : WithBot ℝ) else ⊥

/-- np.max over a row whose entries may be -inf (⊥ is the least element,
exactly as -inf is for np.max). -/
def rowMaxF {n : ℕ} [NeZero n] (x : Fin n → WithBot ℝ) : WithBot ℝ :=
  Finset.univ.sup' ⟨0, Finset.mem_univ 0⟩ x

/-- np.exp (a - m) under IEEE float rules when a may be -inf: exp(-inf - m) = 0
for finite m.  (The case of a finite a with m = ⊥ cannot arise below: m is
always the row maximum, hence at least a.) -/
def expSub (a m : WithBot ℝ) : ℝ :=
  WithBot.recBotCoe 0 (fun av => WithBot.recBotCoe 0 (fun mv => Real.exp (av - mv)) m) a

/-- The notebook softmax applied to a row that may contain -inf entries. -/
def softmaxF {n : ℕ} [NeZero n] (x : Fin n → WithBot ℝ) : Fin n → ℝ := fun i =>
  expSub (x i) (rowMaxF x) / ∑ j, expSub (x j) (rowMaxF x)

/-- The post-softmax weight matrix computed inside scaled_dot_product_attention. -/
def attnWeights {T D : ℕ} [NeZero T] (Q K : Mat T D) : Fin T → Fin T → ℝ := fun i =>
  softmaxF (maskedScores Q K i)

/-- scaled_dot_product_attention from the notebook: weights @ V. -/
def scaled_dot_product_attention {T D : ℕ} [NeZero T] (Q K V : Mat T D) : Mat T D :=
  fun i d => ∑ j, attnWeights Q K i j * V j d

/-- np.mean over a row. -/
def rowMean {D : ℕ} (v : Fin D → ℝ) : ℝ := (∑ j, v j) / D

/-- np.std over a row: the population standard deviation (ddof = 0). -/
def rowStd {D : ℕ} (v : Fin D → ℝ) : ℝ :=
  Real.sqrt ((∑ j, (v j - rowMean v) ^ 2) / D)

/-- layer_norm from the notebook: (x - mean) / (std + eps), per row. -/
def layer_norm {T D : ℕ} (x : Mat T D) (eps : ℝ) : Mat T D := fun i j =>
  (x i j - rowMean (x i)) / (rowStd (x i) + eps)

/-- dropout from the notebook; r holds the draws of np.random.rand (uniform on
[0,1), one per entry) and mask = (r > p).astype(np.float32). -/
def dropout {T D : ℕ} (x : Mat T D) (p : ℝ) (r : Mat T D) : Mat T D := fun i j =>
  x i j * (if p < r i j then 1 else 0) / (1 - p)

/-- relu from the notebook: np.maximum(0, v). -/
def relu (v : ℝ) : ℝ := max 0 v

/-- feed_forward from the notebook: relu(x @ W1 + b1) @ W2 + b2. -/
def feed_forward {T D H : ℕ} (x : Mat T D) (W1 : Mat D H) (b1 : Fin H → ℝ)
    (W2 : Mat H D) (b2 : Fin D → ℝ) : Mat T D :=
  addRow (matmul (fun i k => relu (addRow (matmul x W1) b1 i k)) W2) b2

/-- transformer_block from the notebook (layer_norm is called with its default
eps = 1e-6); the T×D output shape is enforced by the type. -/
def transformer_block {T D H : ℕ} [NeZero T] (x : Mat T D) (W_q W_k W_v : Mat D D)
    (W1 : Mat D H) (b1 : Fin H → ℝ) (W2 : Mat H D) (b2 : Fin D → ℝ) : Mat T D :=
  let Q := matmul x W_q
  let K := matmul x W_k
  let V := matmul x W_v
  let attn := scaled_dot_product_attention Q K V
  let x1 := layer_norm (madd x attn) (1e-6)
  let ffn := feed_forward x1 W1 b1 W2 b2
  layer_norm (madd x1 ffn) (1e-6)

/-- The fixed-order post-norm composition described by the spec (section 4.6),
written as one nested expression:
layer_norm(y + feed_forward(y)) with y = layer_norm(x + attention(xW_q, xW_k, xW_v)). -/
def postNormBlock {T D H : ℕ} [NeZero T] (x : Mat T D) (W_q W_k W_v : Mat D D)
    (W1 : Mat D H) (b1 : Fin H → ℝ) (W2 : Mat H D) (b2 : Fin D → ℝ) : Mat T D :=
  layer_norm
    (madd
      (layer_norm
        (madd x
          (scaled_dot_product_attention (matmul x W_q) (matmul x W_k) (matmul x W_v)))
        (1e-6))
      (feed_forward
        (layer_norm
          (madd x
            (scaled_dot_product_attention (matmul x W_q) (matmul x W_k) (matmul x W_v)))
          (1e-6))
        W1 b1 W2 b2))
    (1e-6)

/-- np.mean of a vector. -/
def mean {T : ℕ} (v : Fin T → ℝ) : ℝ := (∑ i, v i) / T

/-- cross_entropy_loss from the notebook: softmax per row, gather the
probability at each row's target index, negate the log, mean over rows. -/
def cross_entropy_loss {T N : ℕ} [NeZero N] (logits : Mat T N)
    (targets : Fin T → Fin N) : ℝ :=
  mean fun i => -Real.log (softmax (logits i) (targets i))

/-- np.argsort(x): the indices of x in ascending order of value.  NumPy's
default quicksort has an unspecified tie order; insertion sort realizes one
admissible order, and no claim below depends on the tie order. -/
def argsort {n : ℕ} (x : Fin n → ℝ) : List (Fin n) :=
  List.insertionSort (fun a b => x a ≤ x b) (List.finRange n)

/-- The id sitting at a given position of the ascending-sorted index list. -/
def sortPos {n : ℕ} (x : Fin n → ℝ) (q : Fin n) : Fin n :=
  (argsort x).get ⟨q, by simp [argsort]⟩

/-- Python slicing l[-k:]; a slice start of -0 means 0, so k = 0 gives the
whole list. -/
def lastSlice {α : Type*} (l : List α) (k : ℕ) : List α :=
  if k = 0 then l else l.drop (l.length - k)

/-- The candidate ids of top_k_sampling: idx = np.argsort(logits)[-k:]. -/
def top_k_selected {n : ℕ} (x : Fin n → ℝ) (k : ℕ) : List (Fin n) :=
  lastSlice (argsort x) k

/-- top_k_sampling from the notebook.  np.random.choice(idx, p=probs) returns
idx[c] where the position c is drawn with probability probs[c]; those
probabilities are softmax values, all positive, so the draw is modelled as an
explicit argument c ranging over every position of idx. -/
def top_k_sampling {n : ℕ} (x : Fin n → ℝ) (k : ℕ)
    (c : Fin (top_k_selected x k).length) : Fin n :=
  (top_k_selected x k).get c

/-- sorted_idx = np.argsort(logits)[::-1] (ids in descending order of logit). -/
def top_p_sorted_idx {n : ℕ} (x : Fin n → ℝ) : List (Fin n) := (argsort x).reverse

/-- The descending-order index list, read as a function on positions. -/
def descIdx {n : ℕ} (x : Fin n → ℝ) (i : Fin n) : Fin n :=
  (top_p_sorted_idx x).get ⟨i, by simp [top_p_sorted_idx, argsort]⟩

/-- sorted_probs = softmax(logits[sorted_idx]). -/
def sorted_probs {n : ℕ} [NeZero n] (x : Fin n → ℝ) : Fin n → ℝ :=
  softmax fun i => x (descIdx x i)

/-- cum_probs = np.cumsum(sorted_probs), as a function of the position. -/
def cum_probs {n : ℕ} [NeZero n] (x : Fin n → ℝ) (i : Fin n) : ℝ :=
  ∑ j ∈ Finset.Iic i, sorted_probs x j

/-- cutoff = np.searchsorted(cum_probs, p).  On the sorted cum_probs array this
is the first position whose entry is at least p (and the length n when there is
none), here written with findIdx over the positions. -/
def cutoff {n : ℕ} [NeZero n] (x : Fin n → ℝ) (p : ℝ) : ℕ :=
  (List.finRange n).findIdx fun i => decide (p ≤ cum_probs x i)

/-- selected = sorted_idx[:cutoff+1]. -/
def top_p_selected {n : ℕ} [NeZero n] (x : Fin n → ℝ) (p : ℝ) : List (Fin n) :=
  (top_p_sorted_idx x).take (cutoff x p + 1)

/-- top_p_sampling from the notebook; the np.random.choice draw is modelled as
an explicit position argument, as in top_k_sampling. -/
def top_p_sampling {n : ℕ} [NeZero n] (x : Fin n → ℝ) (p : ℝ)
    (c : Fin (top_p_selected x p).length) : Fin n :=
  (top_p_selected x p).get c

/-- NumPy row indexing E[t] for an integer id t: ids in [0, N) index directly,
ids in [-N, 0) wrap to row N + t, anything else raises IndexError (none). -/
def numpyRow {N D : ℕ} (E : Mat N D) (t : ℤ) : Option (Fin D → ℝ) :=
  if h : 0 ≤ t ∧ t < N then some (E ⟨t.toNat, by omega⟩)
  else if h2 : -(N : ℤ) ≤ t ∧ t < 0 then some (E ⟨(t + N).toNat, by omega⟩)
  else none

/-- tokens_to_embeddings from the notebook: embedding_matrix[tokens].  NumPy
fancy indexing fails atomically (IndexError, modelled as none) when any id is
out of range, and otherwise returns the selected rows. -/
def tokens_to_embeddings {N D : ℕ} (E : Mat N D) : List ℤ → Option (List (Fin D → ℝ))
  | [] => some []
  | t :: ts =>
    match numpyRow E t, tokens_to_embeddings E ts with
    | some r, some rest => some (r :: rest)
    | _, _ => none

/-- A concrete length-2 logit vector used to instantiate the sampling theorems. -/
def xw2 : Fin 2 → ℝ := fun _ => 0

/-- A concrete draw position for top_k_sampling xw2 1. -/
def cw5 : Fin (top_k_selected xw2 1).length :=
  ⟨0, by
    have h2 : (argsort xw2).length = 2 := by
      simp only [argsort, List.length_insertionSort, List.length_finRange]
    simp only [top_k_selected, lastSlice]
    rw [if_neg (by norm_num : ¬(1 : ℕ) = 0), List.length_drop, h2]
    norm_num⟩

/-- A concrete draw position for top_p_sampling xw2 (1/2). -/
def cw4 : Fin (top_p_selected xw2 (1/2)).length :=
  ⟨0, by
    simp only [top_p_selected, List.length_take, top_p_sorted_idx, List.length_reverse,
      argsort, List.length_insertionSort, List.length_finRange]
    omega⟩

end

section Softmax

/-- The normalizing denominator of softmax is positive. -/
theorem expsum_pos {n : ℕ} [NeZero n] (x : Fin n → ℝ) :
    0 < ∑ j, Real.exp (x j - rowMax x) :=
  Finset.sum_pos (fun _ _ => Real.exp_pos _) ⟨0, Finset.mem_univ 0⟩

/-- Every softmax output entry is strictly positive. -/
theorem softmax_pos {n : ℕ} [NeZero n] (x : Fin n → ℝ) (i : Fin n) :
    0 < softmax x i :=
  div_pos (Real.exp_pos _) (expsum_pos x)

/-- The softmax outputs sum to 1 (exactly, over the reals). -/
theorem softmax_sum_one {n : ℕ} [NeZero n] (x : Fin n → ℝ) :
    ∑ i, softmax x i = 1 := by
  simp only [softmax]
  rw [← Finset.sum_div]
  exact div_self (expsum_pos x).ne'

/-- The max-subtraction in the notebook softmax cancels: softmax equals the
textbook exp(x) / sum(exp(x)). -/
theorem softmax_eq_exp_div {n : ℕ} [NeZero n] (x : Fin n → ℝ) (i : Fin n) :
    softmax x i = Real.exp (x i) / ∑ j, Real.exp (x j) := by
  simp only [softmax, Real.exp_sub]
  rw [← Finset.sum_div, div_div_div_comm, div_self (Real.exp_ne_zero _), div_one]

end Softmax

/-- Claim C2: every entry of a softmax row is non-negative and the row sums to
1 — exactly over the reals, hence in particular within the 1e-6 tolerance. -/
theorem softmax_is_distribution {n : ℕ} [NeZero n] (x : Fin n → ℝ) :
    (∀ i, 0 ≤ softmax x i) ∧ (∑ i, softmax x i = 1) ∧
      |(∑ i, softmax x i) - 1| ≤ 1e-6 := by
  refine ⟨fun i => (softmax_pos x i).le, softmax_sum_one x, ?_⟩
  rw [softmax_sum_one x]
  norm_num

/-- Witness for C2 at the concrete row (0, 0). -/
theorem softmax_is_distribution_witness :
    (∀ i, 0 ≤ softmax (fun _ : Fin 2 => (0 : ℝ)) i) ∧
      (∑ i, softmax (fun _ : Fin 2 => (0 : ℝ)) i = 1) ∧
      |(∑ i, softmax (fun _ : Fin 2 => (0 : ℝ)) i) - 1| ≤ 1e-6 :=
  softmax_is_distribution (fun _ : Fin 2 => (0 : ℝ))

/-- Claim C7: for eps > 0, layer_norm computes, on every entry, the row-centred
value divided by (population standard deviation + eps), and that denominator is
strictly positive — so the function is defined even on rows of zero variance. -/
theorem layer_norm_formula_total {T D : ℕ} [NeZero D] (x : Mat T D) (eps : ℝ)
    (heps : 0 < eps) (i : Fin T) (j : Fin D) :
    0 < rowStd (x i) + eps ∧
      layer_norm x eps i j = (x i j - rowMean (x i)) / (rowStd (x i) + eps) :=
  ⟨add_pos_of_nonneg_of_pos (Real.sqrt_nonneg _) heps, rfl⟩

/-- Witness for C7 at the 1×1 zero matrix with eps = 1. -/
theorem layer_norm_formula_total_witness :
    0 < rowStd ((fun _ _ => 0 : Mat 1 1) 0) + 1 ∧
      layer_norm (fun _ _ => 0 : Mat 1 1) 1 0 0 =
        ((fun _ _ => 0 : Mat 1 1) 0 0 - rowMean ((fun _ _ => 0 : Mat 1 1) 0)) /
          (rowStd ((fun _ _ => 0 : Mat 1 1) 0) + 1) :=
  layer_norm_formula_total (fun _ _ => 0 : Mat 1 1) 1 one_pos 0 0

/-- Claim C3: transformer_block is exactly the fixed-order post-norm
composition of the spec, y = layer_norm(x + attention(xW_q, xW_k, xW_v)) then
layer_norm(y + feed_forward(y)); the T×D output shape is enforced by the type. -/
theorem transformer_block_eq_postNorm {T D H : ℕ} [NeZero T] [NeZero D]
    (x : Mat T D) (W_q W_k W_v : Mat D D) (W1 : Mat D H) (b1 : Fin H → ℝ)
    (W2 : Mat H D) (b2 : Fin D → ℝ) :
    transformer_block x W_q W_k W_v W1 b1 W2 b2 =
      postNormBlock x W_q W_k W_v W1 b1 W2 b2 := rfl

/-- Witness for C3 at concrete 1×1 inputs. -/
theorem transformer_block_eq_postNorm_witness :
    transformer_block (fun _ _ => 0 : Mat 1 1) (fun _ _ => 1 : Mat 1 1)
        (fun _ _ => 1 : Mat 1 1) (fun _ _ => 1 : Mat 1 1) (fun _ _ => 1 : Mat 1 1)
        (fun _ => 1 : Fin 1 → ℝ) (fun _ _ => 1 : Mat 1 1) (fun _ => 1 : Fin 1 → ℝ) =
      postNormBlock (fun _ _ => 0 : Mat 1 1) (fun _ _ => 1 : Mat 1 1)
        (fun _ _ => 1 : Mat 1 1) (fun _ _ => 1 : Mat 1 1) (fun _ _ => 1 : Mat 1 1)
        (fun _ => 1 : Fin 1 → ℝ) (fun _ _ => 1 : Mat 1 1) (fun _ => 1 : Fin 1 → ℝ) :=
  transformer_block_eq_postNorm _ _ _ _ _ _ _ _

/-- Claim C6: cross_entropy_loss equals the mean over the T rows of the negated
logarithm of the softmax probability at each row's target index. -/
theorem cross_entropy_loss_eq_mean_neg_log {T N : ℕ} [NeZero N]
    (logits : Mat T N) (targets : Fin T → Fin N) :
    cross_entropy_loss logits targets =
      (∑ i, -Real.log (softmax (logits i) (targets i))) / T := by
  simp [cross_entropy_loss, mean]

section Attention

/-- The tril mask entry is 1 exactly on the unmasked (causal) positions. -/
theorem causal_mask_eq_one_iff {T : ℕ} (i j : Fin T) :
    causal_mask T i j = 1 ↔ (j : ℕ) ≤ (i : ℕ) := by
  unfold causal_mask
  split_ifs with h <;> simp [h]

/-- Unmasked entries keep their finite score. -/
theorem maskedScores_of_le {T D : ℕ} (Q K : Mat T D) {i j : Fin T}
    (h : (j : ℕ) ≤ (i : ℕ)) :
    maskedScores Q K i j = ((scores Q K i j : ℝ) : WithBot ℝ) := by
  unfold maskedScores
  rw [if_pos ((causal_mask_eq_one_iff i j).mpr h)]

/-- Masked entries become -inf. -/
theorem maskedScores_of_gt {T D : ℕ} (Q K : Mat T D) {i j : Fin T}
    (h : (i : ℕ) < (j : ℕ)) :
    maskedScores Q K i j = ⊥ := by
  unfold maskedScores
  rw [if_neg fun hc => absurd ((causal_mask_eq_one_iff i j).mp hc) (not_le.mpr h)]

/-- The diagonal of a masked-score row is finite, so the row maximum is finite. -/
theorem maskedRowMax_ne_bot {T D : ℕ} [NeZero T] (Q K : Mat T D) (i : Fin T) :
    rowMaxF (maskedScores Q K i) ≠ ⊥ := by
  intro hbot
  have hle : maskedScores Q K i i ≤ rowMaxF (maskedScores Q K i) :=
    Finset.le_sup' _ (Finset.mem_univ i)
  rw [hbot, le_bot_iff, maskedScores_of_le Q K le_rfl] at hle
  exact WithBot.coe_ne_bot hle

/-- IEEE rule captured by the model: exp(-inf - m) = 0. -/
theorem expSub_bot (mv : WithBot ℝ) : expSub ⊥ mv = 0 := rfl

/-- On finite arguments expSub is the ordinary exp of the difference. -/
theorem expSub_coe (a m : ℝ) :
    expSub ((a : ℝ) : WithBot ℝ) ((m : ℝ) : WithBot ℝ) = Real.exp (a - m) := rfl

/-- The attention weight on any masked (future) position is exactly 0. -/
theorem attnWeights_of_lt {T D : ℕ} [NeZero T] (Q K : Mat T D) {i j : Fin T}
    (h : i < j) : attnWeights Q K i j = 0 := by
  unfold attnWeights softmaxF
  rw [maskedScores_of_gt Q K h, expSub_bot, zero_div]

/-- Each attention-weight row sums to 1 over the unmasked positions. -/
theorem attnWeights_row_sum {T D : ℕ} [NeZero T] (Q K : Mat T D) (i : Fin T) :
    ∑ j ∈ Finset.univ.filter (fun j : Fin T => (j : ℕ) ≤ (i : ℕ)),
      attnWeights Q K i j = 1 := by
  obtain ⟨m, hm⟩ := WithBot.ne_bot_iff_exists.mp (maskedRowMax_ne_bot Q K i)
  have hterm : ∀ j : Fin T, (j : ℕ) ≤ (i : ℕ) →
      expSub (maskedScores Q K i j) (rowMaxF (maskedScores Q K i)) =
        Real.exp (scores Q K i j - m) := by
    intro j hj
    rw [maskedScores_of_le Q K hj, ← hm, expSub_coe]
  have hterm0 : ∀ j : Fin T, ¬ (j : ℕ) ≤ (i : ℕ) →
      expSub (maskedScores Q K i j) (rowMaxF (maskedScores Q K i)) = 0 := by
    intro j hj
    rw [maskedScores_of_gt Q K (not_le.mp hj), expSub_bot]
  have h0 : ∑ j ∈ Finset.univ.filter (fun j : Fin T => ¬ (j : ℕ) ≤ (i : ℕ)),
      expSub (maskedScores Q K i j) (rowMaxF (maskedScores Q K i)) = 0 :=
    Finset.sum_eq_zero fun j hj => hterm0 j (Finset.mem_filter.mp hj).2
  have hsplit : ∑ j, expSub (maskedScores Q K i j) (rowMaxF (maskedScores Q K i)) =
      ∑ j ∈ Finset.univ.filter (fun j : Fin T => (j : ℕ) ≤ (i : ℕ)),
        expSub (maskedScores Q K i j) (rowMaxF (maskedScores Q K i)) := by
    rw [← Finset.sum_filter_add_sum_filter_not Finset.univ
      (fun j : Fin T => (j : ℕ) ≤ (i : ℕ)), h0, add_zero]
  have hpos : 0 < ∑ j ∈ Finset.univ.filter (fun j : Fin T => (j : ℕ) ≤ (i : ℕ)),
      expSub (maskedScores Q K i j) (rowMaxF (maskedScores Q K i)) := by
    apply Finset.sum_pos
    · intro j hj
      rw [hterm j (Finset.mem_filter.mp hj).2]
      exact Real.exp_pos _
    · exact ⟨i, Finset.mem_filter.mpr ⟨Finset.mem_univ i, le_rfl⟩⟩
  unfold attnWeights softmaxF
  rw [← Finset.sum_div, hsplit]
  exact div_self hpos.ne'

/-- The unmasked positions of row 0 reduce to position 0 alone. -/
theorem filter_le_zero_eq {T : ℕ} [NeZero T] :
    Finset.univ.filter (fun j : Fin T => (j : ℕ) ≤ ((0 : Fin T) : ℕ)) = {0} := by
  ext j
  simp [Fin.ext_iff, Fin.val_zero', Nat.le_zero]

/-- Position 0 attends only to itself, with weight 1. -/
theorem attnWeights_zero_zero {T D : ℕ} [NeZero T] (Q K : Mat T D) :
    attnWeights Q K 0 0 = 1 := by
  have h := attnWeights_row_sum Q K 0
  rwa [filter_le_zero_eq, Finset.sum_singleton] at h

end Attention

/-- Claim C1: under the causal mask the attention weight position i puts on any
later position j (i < j) is exactly 0, each post-softmax weight row sums to 1
over the unmasked positions, and in particular output row 0 equals V row 0. -/
theorem causal_attention_correct {T D : ℕ} [NeZero T] [NeZero D] (Q K V : Mat T D) :
    (∀ i j : Fin T, i < j → attnWeights Q K i j = 0) ∧
    (∀ i : Fin T,
      ∑ j ∈ Finset.univ.filter (fun j : Fin T => (j : ℕ) ≤ (i : ℕ)),
        attnWeights Q K i j = 1) ∧
    (∀ d : Fin D, scaled_dot_product_attention Q K V 0 d = V 0 d) := by
  refine ⟨fun i j h => attnWeights_of_lt Q K h, attnWeights_row_sum Q K, fun d => ?_⟩
  unfold scaled_dot_product_attention
  rw [Finset.sum_eq_single 0]
  · rw [attnWeights_zero_zero, one_mul]
  · intro b _ hb
    rw [attnWeights_of_lt Q K ((Fin.pos_iff_ne_zero' b).mpr hb), zero_mul]
  · intro h
    exact absurd (Finset.mem_univ 0) h

/-- Witness for C1 at concrete 2×1 matrices. -/
theorem causal_attention_correct_witness :
    (∀ i j : Fin 2, i < j →
      attnWeights (fun _ _ => 0 : Mat 2 1) (fun _ _ => 0 : Mat 2 1) i j = 0) ∧
    (∀ i : Fin 2,
      ∑ j ∈ Finset.univ.filter (fun j : Fin 2 => (j : ℕ) ≤ (i : ℕ)),
        attnWeights (fun _ _ => 0 : Mat 2 1) (fun _ _ => 0 : Mat 2 1) i j = 1) ∧
    (∀ d : Fin 1,
      scaled_dot_product_attention (fun _ _ => 0 : Mat 2 1) (fun _ _ => 0 : Mat 2 1)
        (fun _ _ => 0 : Mat 2 1) 0 d = (fun _ _ => 0 : Mat 2 1) 0 d) :=
  causal_attention_correct _ _ _

/-- Claim C10: softmax of a gathered subvector equals the restriction of the
full softmax renormalized by its sum over the selected ids — so the subset
softmax used by top_k_sampling and top_p_sampling is the renormalized full
distribution restricted to the selected ids. -/
theorem softmax_gather_renormalizes {m n : ℕ} [NeZero m] [NeZero n]
    (x : Fin n → ℝ) (e : Fin m → Fin n) (i : Fin m) :
    softmax (fun j => x (e j)) i = softmax x (e i) / ∑ j, softmax x (e j) := by
  have hS : (0 : ℝ) < ∑ j, Real.exp (x j) :=
    Finset.sum_pos (fun j _ => Real.exp_pos _) ⟨0, Finset.mem_univ 0⟩
  rw [softmax_eq_exp_div]
  simp_rw [softmax_eq_exp_div x]
  rw [← Finset.sum_div, div_div_div_comm, div_self hS.ne', div_one]

/-- Witness for C10 with the constant gather map on a length-2 vector. -/
theorem softmax_gather_renormalizes_witness :
    softmax (fun j : Fin 1 => (fun _ : Fin 2 => (0 : ℝ)) ((fun _ : Fin 1 => (0 : Fin 2)) j)) 0 =
      softmax (fun _ : Fin 2 => (0 : ℝ)) ((fun _ : Fin 1 => (0 : Fin 2)) 0) /
        ∑ j : Fin 1, softmax (fun _ : Fin 2 => (0 : ℝ)) ((fun _ : Fin 1 => (0 : Fin 2)) j) :=
  softmax_gather_renormalizes (fun _ : Fin 2 => (0 : ℝ)) (fun _ : Fin 1 => (0 : Fin 2)) 0

/-- Claim C8 counterexample: np.random.rand draws from [0, 1), so a draw of
exactly 0 is a possible generator state; with p = 0 the mask test 0 > 0 fails
and the entry is zeroed, so dropout with p = 0 is not the identity for every
state of the generator. -/
theorem dropout_zero_draw_not_identity :
    dropout (fun _ _ => 1 : Mat 1 1) 0 (fun _ _ => 0) ≠ (fun _ _ => 1 : Mat 1 1) := by
  intro h
  have h00 := congrFun (congrFun h 0) 0
  simp [dropout] at h00

/-- Claim C8 amended: for 0 ≤ p < 1, every entry of dropout is either zeroed or
scaled by exactly 1/(1-p); and with p = 0 dropout is the identity provided every
draw is nonzero (a draw of exactly 0, possible for np.random.rand, zeroes its
entry). -/
theorem dropout_zero_or_scale {T D : ℕ} (x r : Mat T D) (p : ℝ)
    (hp0 : 0 ≤ p) (hp1 : p < 1) :
    (∀ i j, dropout x p r i j = 0 ∨ dropout x p r i j = x i j * (1 / (1 - p))) ∧
    (p = 0 → (∀ i j, 0 < r i j) → dropout x p r = x) := by
  constructor
  · intro i j
    unfold dropout
    by_cases h : p < r i j
    · right
      rw [if_pos h]
      ring
    · left
      rw [if_neg h, mul_zero, zero_div]
  · rintro rfl hr
    funext i j
    unfold dropout
    rw [if_pos (hr i j), sub_zero, mul_one, div_one]

/-- Witness for C8 (amended) at p = 1/2 on a 1×1 matrix. -/
theorem dropout_zero_or_scale_witness :
    (∀ i j, dropout (fun _ _ => 1 : Mat 1 1) (1 / 2) (fun _ _ => 1) i j = 0 ∨
      dropout (fun _ _ => 1 : Mat 1 1) (1 / 2) (fun _ _ => 1) i j =
        (fun _ _ => 1 : Mat 1 1) i j * (1 / (1 - 1 / 2))) ∧
    ((1 : ℝ) / 2 = 0 → (∀ i j, 0 < (fun _ _ => 1 : Mat 1 1) i j) →
      dropout (fun _ _ => 1 : Mat 1 1) (1 / 2) (fun _ _ => 1) =
        (fun _ _ => 1 : Mat 1 1)) :=
  dropout_zero_or_scale _ _ _ (by norm_num) (by norm_num)

/-- Claim C9 counterexample: the id -1 is negative, yet the lookup succeeds
(NumPy wraps it to the last row) instead of raising an IndexError. -/
theorem lookup_negative_id_succeeds :
    (tokens_to_embeddings (fun _ _ => 0 : Mat 5 4) [-1]).isSome = true := rfl

/-- numpyRow fails exactly outside [-N, N). -/
theorem numpyRow_eq_none_iff {N D : ℕ} (E : Mat N D) (t : ℤ) :
    numpyRow E t = none ↔ t < -(N : ℤ) ∨ (N : ℤ) ≤ t := by
  unfold numpyRow
  split_ifs with h1 h2 <;> simp <;> omega

/-- The whole lookup fails exactly when some id lies outside [-N, N). -/
theorem tokens_to_embeddings_eq_none_iff {N D : ℕ} (E : Mat N D) (ts : List ℤ) :
    tokens_to_embeddings E ts = none ↔ ∃ t ∈ ts, t < -(N : ℤ) ∨ (N : ℤ) ≤ t := by
  induction ts with
  | nil => simp [tokens_to_embeddings]
  | cons t ts ih =>
    cases hnr : numpyRow E t with
    | none =>
      simp only [tokens_to_embeddings, hnr]
      exact iff_of_true trivial
        ⟨t, List.mem_cons_self t ts, (numpyRow_eq_none_iff E t).mp hnr⟩
    | some r =>
      cases hrest : tokens_to_embeddings E ts with
      | none =>
        simp only [tokens_to_embeddings, hnr, hrest]
        obtain ⟨u, hu, hcond⟩ := ih.mp hrest
        exact iff_of_true trivial ⟨u, List.mem_cons_of_mem t hu, hcond⟩
      | some rest =>
        simp only [tokens_to_embeddings, hnr, hrest]
        constructor
        · intro hcontra
          exact absurd hcontra (by simp)
        · rintro ⟨u, hu, hcond⟩
          rcases List.mem_cons.mp hu with rfl | hu2
          · have := (numpyRow_eq_none_iff E u).mpr hcond
            rw [hnr] at this
            exact absurd this (by simp)
          · have := ih.mpr ⟨u, hu2, hcond⟩
            rw [hrest] at this
            exact absurd this (by simp)

/-- Row lookup at an in-range id returns that embedding row. -/
theorem numpyRow_coe {N D : ℕ} (E : Mat N D) (t : Fin N) :
    numpyRow E ((t : ℕ) : ℤ) = some (E t) := by
  unfold numpyRow
  rw [dif_pos ⟨Int.ofNat_nonneg _, by exact_mod_cast t.isLt⟩]
  exact congrArg (fun v => some (E v)) (Fin.ext (by simp))

/-- On in-range ids the whole lookup succeeds with the corresponding rows. -/
theorem tokens_to_embeddings_in_range {N D : ℕ} (E : Mat N D) (ts : List (Fin N)) :
    tokens_to_embeddings E (ts.map fun t => ((t : ℕ) : ℤ)) =
      some (ts.map fun t => E t) := by
  induction ts with
  | nil => rfl
  | cons t ts ih =>
    show (match numpyRow E ((t : ℕ) : ℤ),
        tokens_to_embeddings E (ts.map fun u => ((u : ℕ) : ℤ)) with
      | some r, some rest => some (r :: rest)
      | _, _ => none) = some (E t :: ts.map fun u => E u)
    rw [numpyRow_coe, ih]

/-- Claim C9 amended: the lookup fails exactly when some id lies outside
[-N, N) — NumPy wraps ids in [-N, 0) to row N + id instead of failing — and
when every id is in [0, N) it fully succeeds and returns the corresponding
rows of the embedding matrix. -/
theorem lookup_fails_iff_out_of_range {N D : ℕ} (E : Mat N D) :
    (∀ ts : List ℤ,
      tokens_to_embeddings E ts = none ↔ ∃ t ∈ ts, t < -(N : ℤ) ∨ (N : ℤ) ≤ t) ∧
    (∀ ts : List (Fin N),
      tokens_to_embeddings E (ts.map fun t => ((t : ℕ) : ℤ)) =
        some (ts.map fun t => E t)) :=
  ⟨tokens_to_embeddings_eq_none_iff E, tokens_to_embeddings_in_range E⟩

section Sampling

/-- argsort is a permutation of all the indices. -/
theorem argsort_perm {n : ℕ} (x : Fin n → ℝ) :
    List.Perm (argsort x) (List.finRange n) :=
  List.perm_insertionSort _ _

/-- argsort lists all n indices. -/
theorem argsort_length {n : ℕ} (x : Fin n → ℝ) : (argsort x).length = n := by
  simp only [argsort, List.length_insertionSort, List.length_finRange]

/-- argsort has no duplicate indices. -/
theorem argsort_nodup {n : ℕ} (x : Fin n → ℝ) : (argsort x).Nodup :=
  (argsort_perm x).nodup_iff.mpr (List.nodup_finRange n)

/-- Every index occurs in argsort. -/
theorem mem_argsort {n : ℕ} (x : Fin n → ℝ) (j : Fin n) : j ∈ argsort x :=
  (argsort_perm x).mem_iff.mpr (List.mem_finRange j)

/-- argsort is sorted by ascending value of x. -/
theorem argsort_sorted {n : ℕ} (x : Fin n → ℝ) :
    (argsort x).Sorted (fun a b => x a ≤ x b) := by
  haveI : IsTotal (Fin n) (fun a b => x a ≤ x b) := ⟨fun a b => le_total (x a) (x b)⟩
  haveI : IsTrans (Fin n) (fun a b => x a ≤ x b) := ⟨fun _ _ _ hab hbc => le_trans hab hbc⟩
  exact List.sorted_insertionSort _ _

/-- Values read along argsort positions are monotone. -/
theorem sortPos_mono {n : ℕ} (x : Fin n → ℝ) {q1 q2 : Fin n} (h : q1 ≤ q2) :
    x (sortPos x q1) ≤ x (sortPos x q2) := by
  rcases eq_or_lt_of_le h with rfl | hlt
  · exact le_rfl
  · exact (argsort_sorted x).rel_get_of_lt (Fin.mk_lt_mk.mpr hlt)

/-- Reading argsort positions is injective. -/
theorem sortPos_injective {n : ℕ} (x : Fin n → ℝ) : Function.Injective (sortPos x) := by
  intro a b hab
  unfold sortPos at hab
  have h := ((argsort_nodup x).get_inj_iff).mp hab
  have h2 : (a : ℕ) = (b : ℕ) := Fin.mk_eq_mk.mp h
  exact Fin.ext h2

/-- Reading argsort positions is a bijection on Fin n. -/
theorem sortPos_bijective {n : ℕ} (x : Fin n → ℝ) : Function.Bijective (sortPos x) :=
  Finite.injective_iff_bijective.mp (sortPos_injective x)

end Sampling

/-- Claim C5: for 1 ≤ k ≤ N, top_k_sampling only returns ids among the k
highest-logit ids: fewer than k ids carry a strictly larger logit than the
returned id (the tie-agnostic meaning of membership in a top-k set), so an id
outside every top-k set is never returned. -/
theorem top_k_within_top_set {n : ℕ} (x : Fin n → ℝ) (k : ℕ) (hk1 : 1 ≤ k)
    (hkn : k ≤ n) (c : Fin (top_k_selected x k).length) :
    (Finset.univ.filter fun j => x (top_k_sampling x k c) < x j).card < k := by
  have hk0 : ¬ k = 0 := by omega
  have hlen : (top_k_selected x k).length = k := by
    simp only [top_k_selected, lastSlice]
    rw [if_neg hk0, List.length_drop, argsort_length]
    omega
  have hck : (c : ℕ) < k := Nat.lt_of_lt_of_eq c.isLt hlen
  have hq : n - k + (c : ℕ) < n := by omega
  have hr : top_k_sampling x k c = sortPos x ⟨n - k + (c : ℕ), hq⟩ := by
    simp only [top_k_sampling, top_k_selected, lastSlice, if_neg hk0, sortPos,
      List.get_eq_getElem, List.getElem_drop, argsort_length]
  rw [hr]
  set q : Fin n := ⟨n - k + (c : ℕ), hq⟩ with hqdef
  have hsubset : (Finset.univ.filter fun j => x (sortPos x q) < x j) ⊆
      (Finset.Ioi q).image (sortPos x) := by
    intro j hj
    have hxj := (Finset.mem_filter.mp hj).2
    obtain ⟨qj, hqj⟩ := (sortPos_bijective x).surjective j
    rw [← hqj] at hxj ⊢
    rcases le_or_lt qj q with hle | hgt
    · exact absurd (sortPos_mono x hle) (not_le.mpr hxj)
    · exact Finset.mem_image.mpr ⟨qj, Finset.mem_Ioi.mpr hgt, rfl⟩
  have hcard : (Finset.univ.filter fun j => x (sortPos x q) < x j).card ≤
      (Finset.Ioi q).card :=
    le_trans (Finset.card_le_card hsubset) Finset.card_image_le
  rw [Fin.card_Ioi] at hcard
  have hqv : (q : ℕ) = n - k + (c : ℕ) := rfl
  omega

/-- Witness for C5 with k = 1 on a concrete length-2 logit vector. -/
theorem top_k_within_top_set_witness :
    (Finset.univ.filter fun j => xw2 (top_k_sampling xw2 1 cw5) < xw2 j).card < 1 :=
  top_k_within_top_set xw2 1 le_rfl (by norm_num) cw5

section TopP

/-- The descending index list also lists all n indices. -/
theorem top_p_sorted_idx_length {n : ℕ} (x : Fin n → ℝ) :
    (top_p_sorted_idx x).length = n := by
  simp only [top_p_sorted_idx, List.length_reverse, argsort_length]

/-- Every id occurs in the descending index list. -/
theorem mem_top_p_sorted_idx {n : ℕ} (x : Fin n → ℝ) (j : Fin n) :
    j ∈ top_p_sorted_idx x := by
  simp only [top_p_sorted_idx, List.mem_reverse]
  exact mem_argsort x j

/-- The descending index list has no duplicates. -/
theorem top_p_sorted_idx_nodup {n : ℕ} (x : Fin n → ℝ) :
    (top_p_sorted_idx x).Nodup := by
  simp only [top_p_sorted_idx, List.nodup_reverse]
  exact argsort_nodup x

/-- Reading descending positions is injective. -/
theorem descIdx_injective {n : ℕ} (x : Fin n → ℝ) : Function.Injective (descIdx x) := by
  intro a b hab
  unfold descIdx at hab
  have h := ((top_p_sorted_idx_nodup x).get_inj_iff).mp hab
  have h2 : (a : ℕ) = (b : ℕ) := Fin.mk_eq_mk.mp h
  exact Fin.ext h2

/-- Reading descending positions is a bijection on Fin n. -/
theorem descIdx_bijective {n : ℕ} (x : Fin n → ℝ) : Function.Bijective (descIdx x) :=
  Finite.injective_iff_bijective.mp (descIdx_injective x)

/-- Each sorted probability is positive. -/
theorem sorted_probs_pos {n : ℕ} [NeZero n] (x : Fin n → ℝ) (i : Fin n) :
    0 < sorted_probs x i := softmax_pos _ i

/-- The sorted probabilities sum to 1. -/
theorem sorted_probs_sum_one {n : ℕ} [NeZero n] (x : Fin n → ℝ) :
    ∑ i, sorted_probs x i = 1 := softmax_sum_one _

/-- Softmax of the gathered full permutation is the permuted full softmax:
sorted_probs reads the full softmax along the descending order. -/
theorem sorted_probs_eq_softmax {n : ℕ} [NeZero n] (x : Fin n → ℝ) (i : Fin n) :
    sorted_probs x i = softmax x (descIdx x i) := by
  unfold sorted_probs
  rw [softmax_eq_exp_div, softmax_eq_exp_div]
  show Real.exp (x (descIdx x i)) / (∑ j, Real.exp (x (descIdx x j))) =
    Real.exp (x (descIdx x i)) / ∑ j, Real.exp (x j)
  congr 1
  exact Fintype.sum_bijective (descIdx x) (descIdx_bijective x)
    (fun j => Real.exp (x (descIdx x j))) (fun j => Real.exp (x j)) fun j => rfl

/-- A cumulative probability strictly before the last position is below 1. -/
theorem cum_probs_lt_one {n : ℕ} [NeZero n] (x : Fin n → ℝ) {i : Fin n}
    (hi : (i : ℕ) < n - 1) : cum_probs x i < 1 := by
  have hn : 0 < n := Nat.pos_of_ne_zero (NeZero.ne n)
  have hlast : n - 1 < n := by omega
  have hne : (⟨n - 1, hlast⟩ : Fin n) ∉ Finset.Iic i := by
    simp only [Finset.mem_Iic, Fin.le_def]
    omega
  have hlt : ∑ j ∈ Finset.Iic i, sorted_probs x j < ∑ j, sorted_probs x j :=
    Finset.sum_lt_sum_of_subset (Finset.subset_univ _) (Finset.mem_univ _) hne
      (sorted_probs_pos x _) fun j _ _ => (sorted_probs_pos x j).le
  rw [sorted_probs_sum_one] at hlt
  exact hlt

/-- The cumulative probability at the last position is exactly 1. -/
theorem cum_probs_last_eq_one {n : ℕ} [NeZero n] (x : Fin n → ℝ) {i : Fin n}
    (hi : (i : ℕ) = n - 1) : cum_probs x i = 1 := by
  have hIic : Finset.Iic i = Finset.univ := by
    ext j
    simp only [Finset.mem_Iic, Finset.mem_univ, iff_true, Fin.le_def]
    have := j.isLt
    omega
  unfold cum_probs
  rw [hIic, sorted_probs_sum_one]

/-- For p ≤ 1 the searchsorted cutoff lands inside the array. -/
theorem cutoff_lt {n : ℕ} [NeZero n] (x : Fin n → ℝ) {p : ℝ} (hp1 : p ≤ 1) :
    cutoff x p < n := by
  have hn : 0 < n := Nat.pos_of_ne_zero (NeZero.ne n)
  have hlast : n - 1 < n := by omega
  have hex : ∃ i ∈ List.finRange n, (decide (p ≤ cum_probs x i)) = true :=
    ⟨⟨n - 1, hlast⟩, List.mem_finRange _, by
      rw [decide_eq_true_eq, cum_probs_last_eq_one x rfl]
      exact hp1⟩
  have h := List.findIdx_lt_length_of_exists hex
  rwa [List.length_finRange] at h

/-- The cumulative probability at the cutoff position reaches p. -/
theorem cutoff_reaches {n : ℕ} [NeZero n] (x : Fin n → ℝ) {p : ℝ} (hp1 : p ≤ 1) :
    p ≤ cum_probs x ⟨cutoff x p, cutoff_lt x hp1⟩ := by
  have hw : (List.finRange n).findIdx (fun i => decide (p ≤ cum_probs x i)) <
      (List.finRange n).length := by
    rw [List.length_finRange]
    exact cutoff_lt x hp1
  have h := @List.findIdx_getElem _ (fun i => decide (p ≤ cum_probs x i))
    (List.finRange n) hw
  simp only [List.getElem_finRange, decide_eq_true_eq] at h
  exact h

/-- Every position strictly before the cutoff has cumulative probability
below p, so the code prefix is the smallest one covering p. -/
theorem cutoff_least {n : ℕ} [NeZero n] (x : Fin n → ℝ) (p : ℝ) {i : Fin n}
    (hi : (i : ℕ) < cutoff x p) : cum_probs x i < p := by
  have h := List.not_of_lt_findIdx
    (show (i : ℕ) < (List.finRange n).findIdx (fun i => decide (p ≤ cum_probs x i)) from hi)
  simp only [List.getElem_finRange, decide_eq_false_iff_not, not_le, Fin.eta] at h
  exact h

end TopP

/-- Claim C4: top_p_sampling returns an id belonging to the smallest
descending-logit-sorted prefix whose cumulative softmax probability is at
least p, inclusive of the crossing id: the cumulative probability at the
cutoff position reaches p, every strictly shorter prefix stays below p, and
the returned id sits at a position no later than the cutoff (the sorted
probabilities being exactly the full softmax read in descending order); for
p = 1 the selected set is the whole vocabulary. -/
theorem top_p_within_nucleus {n : ℕ} [NeZero n] (x : Fin n → ℝ) (p : ℝ)
    (hp0 : 0 < p) (hp1 : p ≤ 1) (c : Fin (top_p_selected x p).length) :
    ∃ hm : cutoff x p < n,
      (∀ i : Fin n, sorted_probs x i = softmax x (descIdx x i)) ∧
      p ≤ cum_probs x ⟨cutoff x p, hm⟩ ∧
      (∀ i : Fin n, (i : ℕ) < cutoff x p → cum_probs x i < p) ∧
      (∃ q : Fin n, (q : ℕ) ≤ cutoff x p ∧ top_p_sampling x p c = descIdx x q) ∧
      (p = 1 → ∀ j : Fin n, j ∈ top_p_selected x p) := by
  refine ⟨cutoff_lt x hp1, sorted_probs_eq_softmax x, cutoff_reaches x hp1,
    fun i hi => cutoff_least x p hi, ?_, ?_⟩
  · have hlen : (top_p_selected x p).length = min (cutoff x p + 1) n := by
      simp only [top_p_selected, List.length_take, top_p_sorted_idx_length]
    have hcm : (c : ℕ) < min (cutoff x p + 1) n := Nat.lt_of_lt_of_eq c.isLt hlen
    have hcn : (c : ℕ) < n := lt_of_lt_of_le hcm (min_le_right _ _)
    have hcc : (c : ℕ) ≤ cutoff x p := by
      have := lt_of_lt_of_le hcm (min_le_left _ _)
      omega
    refine ⟨⟨(c : ℕ), hcn⟩, hcc, ?_⟩
    simp only [top_p_sampling, top_p_selected, descIdx, List.get_eq_getElem,
      List.getElem_take]
  · rintro rfl j
    have hn : 0 < n := Nat.pos_of_ne_zero (NeZero.ne n)
    have hcut_ge : n - 1 ≤ cutoff x 1 := by
      by_contra hlt
      push_neg at hlt
      have h1 : cum_probs x ⟨cutoff x 1, cutoff_lt x hp1⟩ < 1 :=
        @cum_probs_lt_one n _ x ⟨cutoff x 1, cutoff_lt x hp1⟩ hlt
      have h2 := cutoff_reaches x hp1
      linarith
    simp only [top_p_selected]
    rw [List.take_of_length_le]
    · exact mem_top_p_sorted_idx x j
    · rw [top_p_sorted_idx_length]
      omega

/-- Witness for C4 with p = 1/2 on a concrete length-2 logit vector. -/
theorem top_p_within_nucleus_witness :
    ∃ hm : cutoff xw2 (1 / 2) < 2,
      (∀ i : Fin 2, sorted_probs xw2 i = softmax xw2 (descIdx xw2 i)) ∧
      1 / 2 ≤ cum_probs xw2 ⟨cutoff xw2 (1 / 2), hm⟩ ∧
      (∀ i : Fin 2, (i : ℕ) < cutoff xw2 (1 / 2) → cum_probs xw2 i < 1 / 2) ∧
      (∃ q : Fin 2, (q : ℕ) ≤ cutoff xw2 (1 / 2) ∧
        top_p_sampling xw2 (1 / 2) cw4 = descIdx xw2 q) ∧
      ((1 : ℝ) / 2 = 1 → ∀ j : Fin 2, j ∈ top_p_selected xw2 (1 / 2)) :=
  top_p_within_nucleus xw2 (1 / 2) (by norm_num) (by norm_num) cw4

/-- Witness for C6 at a concrete 1×2 logit matrix. -/
theorem cross_entropy_loss_eq_mean_neg_log_witness :
    cross_entropy_loss (fun _ _ => 0 : Mat 1 2) (fun _ => 0) =
      (∑ i : Fin 1, -Real.log (softmax ((fun _ _ => 0 : Mat 1 2) i) 0)) / ((1 : ℕ) : ℝ) :=
  cross_entropy_loss_eq_mean_neg_log (fun _ _ => 0 : Mat 1 2) (fun _ => 0)

end TinyTransformer
